import Mathlib

/-!
Verification of the TAO Colosseum validator's event cache and incremental
aggregation core.  The definitions below are a shallow embedding of the
Python sources:

* `taocolosseum/validator/database.py` — the SQLite-backed event store,
  snapshot table and miner-data table, modelled as Lean lists of rows;
  `INSERT OR IGNORE` under a `UNIQUE` constraint becomes an insert guarded
  by a key-equality scan.
* `taocolosseum/validator/contract.py` — the chain log reader
  (`get_bet_events`), the 7-day window reconciler (`get_bets_last_7_days`)
  and the time-decay aggregator (`calculate_time_decayed_volume`).
* `taocolosseum/validator/reward.py` — the proportional reward normalizer
  (`calculate_volume_rewards`).
* `taocolosseum/core/const.py` — the numeric constants.

Modelling conventions: Python floats and `REAL` columns are modelled as
exact rationals (ℚ); uint256 wei amounts as ℕ; unix timestamps as ℤ
(Python's `max(0, a - b)` on blocks coincides with truncated ℕ
subtraction, which is used for block arithmetic); a Python value that is
either an `int` or a `float` is the sum type `PyNum`; a function that
returns `None` is modelled with an `Option` result.  RPC calls that can
raise are parameterised by an `RpcOutcome`; a log on which
`process_log` would raise carries `decode_ok := false`.
-/

/-- Python numeric value that is dynamically either an `int` or a `float`.
The bet-amount field flows through the system with exactly this dynamic
typing: raw chain logs carry wei as `int`, cached/merged events carry the
native-unit amount as `float`. -/
inductive PyNum where
  | int (n : ℤ)
  | float (q : ℚ)
deriving DecidableEq

/-- Constants from `taocolosseum/core/const.py`. -/
def TIME_DECAY_WEIGHTS : List ℚ := [1, 85/100, 70/100, 55/100, 40/100, 25/100, 10/100]

def BLOCKS_PER_DAY : ℕ := 7200

def SECONDS_PER_DAY : ℕ := 86400

/-- Wei per native unit: `from_wei(x, "ether")` divides by `10^18`. -/
def WEI_PER_TAO : ℕ := 10 ^ 18

def from_wei (w : ℕ) : ℚ := (w : ℚ) / (WEI_PER_TAO : ℚ)

/-- A decoded `BetPlaced` log as it exists on chain (`amount_wei` is the raw
uint256 amount).  `decode_ok` models whether `process_log` succeeds on this
log (a malformed log raises inside the per-log loop of `get_bet_events`). -/
structure ChainEvent where
  game_id : ℕ
  bettor : String
  side : ℕ
  amount_wei : ℕ
  block_number : ℕ
  timestamp : ℤ
  decode_ok : Bool
deriving DecidableEq

/-- The chain state seen through the RPC: the contract's logs plus the
current block number. -/
structure Chain where
  logs : List ChainEvent
  current_block : ℕ
deriving DecidableEq

/-- A row of the `bet_events` SQLite table (`database.py`, `init_db`).
`amount` is a `REAL` column holding the native-unit (ether) amount. -/
structure BetRow where
  contract_address : String
  evm_address : String
  game_id : ℕ
  amount : ℚ
  side : ℕ
  block_number : ℕ
  timestamp : ℤ
deriving DecidableEq

abbrev BetTable := List BetRow

/-- The event dict shape produced by `get_cached_bet_events` and by the
merge step of `get_bets_last_7_days` (keys `game_id`, `amount`, `side`,
`block_number`, `timestamp`). -/
structure BetDict where
  game_id : ℕ
  amount : PyNum
  side : ℕ
  block_number : ℕ
  timestamp : ℤ
deriving DecidableEq

/-- The `UNIQUE(contract_address, evm_address, game_id, block_number, side)`
constraint of the `bet_events` table. -/
def sameBetKey (r s : BetRow) : Bool :=
  r.contract_address == s.contract_address && r.evm_address == s.evm_address &&
    r.game_id == s.game_id && r.block_number == s.block_number && r.side == s.side

/-- `cache_bet_event` (`database.py` lines 375–401): `INSERT OR IGNORE`
under the uniqueness key.  The Python function has no `return` statement,
so its return value is always `None`; the second component models that
returned value. -/
def cache_bet_event (evm_address : String) (game_id : ℕ) (amount : ℚ) (side : ℕ)
    (block_number : ℕ) (timestamp : ℤ) (contract_address : String)
    (T : BetTable) : BetTable × Option Bool :=
  let row : BetRow :=
    ⟨contract_address, evm_address, game_id, amount, side, block_number, timestamp⟩
  if T.any (fun r => sameBetKey r row) then (T, none) else (T ++ [row], none)

/-- Projection of a stored row to the dict returned by
`get_cached_bet_events`; the `REAL` amount reads back as a Python float. -/
def betRowToDict (r : BetRow) : BetDict :=
  ⟨r.game_id, .float r.amount, r.side, r.block_number, r.timestamp⟩

/-- The `ORDER BY timestamp DESC` of `get_cached_bet_events`. -/
def sortByTimestampDesc (l : List BetRow) : List BetRow :=
  List.insertionSort (fun a b => b.timestamp ≤ a.timestamp) l

/-- `get_cached_bet_events` (`database.py` lines 404–434): rows of the
current contract and address with `timestamp >= since`, newest first. -/
def get_cached_bet_events (evm_address : String) (since_timestamp : ℤ)
    (contract_address : String) (T : BetTable) : List BetDict :=
  (sortByTimestampDesc (T.filter (fun r =>
      r.contract_address == contract_address && r.evm_address == evm_address &&
        decide (since_timestamp ≤ r.timestamp)))).map betRowToDict

/-- Outcome of the outer `get_logs` RPC call: success, or a raised
exception carrying an error message. -/
inductive RpcOutcome where
  | ok
  | error (msg : String)

/-- ASCII lowercasing of one character, as Python's `str.lower` does on the
ASCII strings involved (EVM hex addresses, RPC error messages). -/
def lowerChar (ch : Char) : Char :=
  if 'A' ≤ ch ∧ ch ≤ 'Z' then Char.ofNat (ch.toNat + 32) else ch

/-- Python's `str.lower` (the strings lowercased by this system are ASCII). -/
def strToLower (s : String) : String := ⟨s.data.map lowerChar⟩

/-- Python's `pat in s` on strings, first half: `pat` starts `s`. -/
def charsStartWith : List Char → List Char → Bool
  | [], _ => true
  | _ :: _, [] => false
  | p :: ps, c :: cs => p == c && charsStartWith ps cs

/-- Python's `pat in s` on strings: `pat` occurs contiguously in `s`. -/
def charsContain (pat : List Char) : List Char → Bool
  | [] => charsStartWith pat []
  | c :: cs => charsStartWith pat (c :: cs) || charsContain pat cs

/-- Heuristic rate-limit classifier `_is_rate_limit_error`
(`contract.py` lines 31–45): substring scan of the lowercased message. -/
def is_rate_limit_error (msg : String) : Bool :=
  let s := (strToLower msg).data
  ["429", "rate limit", "rate_limit", "too many request", "throttl",
    "quota exceeded", "limit exceeded"].any (fun x => charsContain x.data s)

/-- The log filter of `get_bet_events`: the indexed `bettor` topic plus the
`fromBlock`/`toBlock` range (the contract-address filter is implicit: the
modelled chain holds this contract's logs). -/
def chainLogsFor (c : Chain) (address : String) (from_block to_block : ℕ) :
    List ChainEvent :=
  c.logs.filter (fun e => e.bettor == address &&
    decide (from_block ≤ e.block_number) && decide (e.block_number ≤ to_block))

/-- The row written for a decoded log by the caching step of
`get_bet_events`: address lowercased, amount converted wei → native. -/
def toBetRow (contract_address address : String) (e : ChainEvent) : BetRow :=
  ⟨contract_address, (strToLower address), e.game_id, from_wei e.amount_wei,
    e.side, e.block_number, e.timestamp⟩

/-- One iteration of the caching loop inside `get_bet_events`. -/
def cacheChainEvent (contract_address address : String) (e : ChainEvent)
    (T : BetTable) : BetTable :=
  (cache_bet_event (strToLower address) e.game_id (from_wei e.amount_wei) e.side
    e.block_number e.timestamp contract_address T).1

/-- `get_bet_events` (`contract.py` lines 164–261): on success, decode the
logs in range (a log on which decoding raises is skipped by the inner
`except ... continue`), cache each decoded event, and return them; on any
outer exception return the empty list (lines 251–261). -/
def get_bet_events (c : Chain) (outcome : RpcOutcome)
    (contract_address address : String) (from_block : ℕ) (to_block : Option ℕ)
    (T : BetTable) : List ChainEvent × BetTable :=
  match outcome with
  | .error _ => ([], T)
  | .ok =>
    let to_block_val := to_block.getD c.current_block
    let bet_events := (chainLogsFor c address from_block to_block_val).filter
      (fun e => e.decode_ok)
    (bet_events,
      bet_events.foldl (fun acc e => cacheChainEvent contract_address address e acc) T)

/-- Conversion of a freshly fetched chain event to the merged-output dict of
`get_bets_last_7_days` (amount `float(w3.from_wei(·, "ether"))`). -/
def chainEventToDict (e : ChainEvent) : BetDict :=
  ⟨e.game_id, .float (from_wei e.amount_wei), e.side, e.block_number, e.timestamp⟩

/-- `max(e["block_number"] for e in cached_events)` (nonempty list). -/
def maxBlockOf (l : List BetDict) : ℕ := (l.map (fun d => d.block_number)).foldl max 0

/-- `from_block = max(0, current_block - BLOCKS_PER_DAY * 7)` — truncated ℕ
subtraction coincides with Python's `max(0, ·)` on integers. -/
def floor_block_of (current_block : ℕ) : ℕ := current_block - BLOCKS_PER_DAY * 7

/-- The block-range decision of `get_bets_last_7_days` (lines 274–298):
`none` means the cache is treated as fresh (last cached block within 100
blocks of the head) and the chain is not queried; `some fb` means the chain
is queried from `fb`.  With a cache, `fb = last_cached_block + 1`; with no
cache, `fb = floor_block`. -/
def reconcile_from_block (current_block : ℕ) (cached : List BetDict) : Option ℕ :=
  if cached.isEmpty then some (floor_block_of current_block)
  else
    let last_cached_block := maxBlockOf cached
    if current_block - 100 ≤ last_cached_block then none
    else some (last_cached_block + 1)

/-- `get_bets_last_7_days` (`contract.py` lines 263–333): read the cache for
the last 7 days, decide the chain range, fetch and cache new events, and
return `cached_events + converted new_events`. -/
def get_bets_last_7_days (c : Chain) (outcome : RpcOutcome)
    (contract_address address : String) (now : ℤ) (T : BetTable) :
    List BetDict × BetTable :=
  let seven_days_ago : ℤ := now - 7 * (SECONDS_PER_DAY : ℤ)
  let cached_events := get_cached_bet_events (strToLower address) seven_days_ago
    contract_address T
  match reconcile_from_block c.current_block cached_events with
  | none => (cached_events, T)
  | some fb =>
    let res := get_bet_events c outcome contract_address address fb none T
    (cached_events ++ res.1.map chainEventToDict, res.2)

/-- The aggregator's per-event amount handling (`contract.py` lines
356–359): a value that is still an `int` is assumed to be wei and divided
by `1e18`; a `float` is used as-is. -/
def pyAmountToTao : PyNum → ℚ
  | .int n => (n : ℚ) / ((10 : ℚ) ^ 18)
  | .float q => q

/-- `daily_volumes[i] += x` on a 7-element list. -/
def addAt : List ℚ → ℕ → ℚ → List ℚ
  | [], _, _ => []
  | v :: rest, 0, x => (v + x) :: rest
  | v :: rest, n + 1, x => v :: addAt rest n x

/-- `calculate_time_decayed_volume` (`contract.py` lines 336–371):
`days_ago = (now - event_time).days` (floor division of the elapsed seconds
by 86400, matching Python's `timedelta.days`); events with
`0 ≤ days_ago < 7` are bucketed, others ignored; the result is
`(Σ daily[i] * weight[i], daily_volumes)`. -/
def calculate_time_decayed_volume (now : ℤ) (bet_events : List BetDict) :
    ℚ × List ℚ :=
  let daily_volumes := bet_events.foldl (fun d e =>
      let days_ago : ℤ := (now - e.timestamp).fdiv 86400
      if 0 ≤ days_ago ∧ days_ago < 7 then
        addAt d days_ago.toNat (pyAmountToTao e.amount)
      else d)
    (List.replicate 7 (0 : ℚ))
  (((daily_volumes.zip TIME_DECAY_WEIGHTS).map (fun p => p.1 * p.2)).sum,
    daily_volumes)

/-- `uids = sorted(volumes.keys())` in `calculate_volume_rewards`. -/
def sorted_uids (volumes : List (ℕ × ℚ)) : List ℕ :=
  List.insertionSort (fun a b => a ≤ b) (volumes.map Prod.fst)

/-- `volumes[uid]` — keys of a Python dict are unique, so the first match
is the value. -/
def lookupVolume (volumes : List (ℕ × ℚ)) (uid : ℕ) : ℚ :=
  (volumes.lookup uid).getD 0

/-- `calculate_volume_rewards` (`reward.py` lines 31–71): empty input →
empty array; zero total volume → zero vector; otherwise each entry is
`volume / total`, aligned with the sorted uid list. -/
def calculate_volume_rewards (volumes : List (ℕ × ℚ)) : List ℚ :=
  if volumes.isEmpty then []
  else
    let uids := sorted_uids volumes
    let raw_volumes := uids.map (lookupVolume volumes)
    let total_volume := raw_volumes.sum
    if total_volume = 0 then List.replicate uids.length 0
    else raw_volumes.map (fun v => v / total_volume)

/-- The reward array re-keyed by uid (the Python array is index-aligned
with `sorted(volumes.keys())`). -/
def rewardPairs (volumes : List (ℕ × ℚ)) : List (ℕ × ℚ) :=
  (sorted_uids volumes).zip (calculate_volume_rewards volumes)

/-- A row of the `snapshots` table (`scores`/`volumes` stand for the JSON
columns). -/
structure SnapshotRow where
  contract_address : String
  block_number : ℕ
  total_miners : ℕ
  total_volume : ℚ
  scores : List (ℕ × ℚ)
  volumes : List (ℕ × ℚ)
deriving DecidableEq

/-- `save_snapshot` (`database.py` lines 139–180): appends one row with
`total_miners = len([s for s in scores.values() if s > 0])` and
`total_volume = sum(volumes.values())`. -/
def save_snapshot (block_number : ℕ) (scores volumes : List (ℕ × ℚ))
    (contract_address : String) (S : List SnapshotRow) : List SnapshotRow :=
  S ++ [{ contract_address := contract_address
          block_number := block_number
          total_miners := (scores.filter (fun p => decide (0 < p.2))).length
          total_volume := (volumes.map Prod.snd).sum
          scores := scores
          volumes := volumes }]

/-- `get_latest_snapshot`: newest (`ORDER BY id DESC LIMIT 1`, i.e. last
inserted) row of the given contract. -/
def get_latest_snapshot (contract_address : String) (S : List SnapshotRow) :
    Option SnapshotRow :=
  (S.filter (fun r => r.contract_address == contract_address)).getLast?

/-- A row of the `miner_data` table (`UNIQUE(contract_address, uid)`). -/
structure MinerRow where
  contract_address : String
  uid : ℕ
  hotkey : String
  coldkey : String
  evm_address : Option String
  daily_volumes : List ℚ
  weighted_volume : ℚ
  score : ℚ
deriving DecidableEq

/-- The dict returned by miner-data reads (no contract column). -/
structure MinerDict where
  uid : ℕ
  hotkey : String
  coldkey : String
  evm_address : Option String
  daily_volumes : List ℚ
  weighted_volume : ℚ
  score : ℚ
deriving DecidableEq

def minerRowToDict (r : MinerRow) : MinerDict :=
  ⟨r.uid, r.hotkey, r.coldkey, r.evm_address, r.daily_volumes,
    r.weighted_volume, r.score⟩

/-- `update_miner_data` (`database.py` lines 266–311): `UPDATE` the row of
`(contract_address, uid)` if present, else `INSERT`. -/
def update_miner_data (uid : ℕ) (hotkey coldkey : String)
    (evm_address : Option String) (daily_volumes : List ℚ)
    (weighted_volume score : ℚ) (contract_address : String)
    (M : List MinerRow) : List MinerRow :=
  if M.any (fun r => r.contract_address == contract_address && r.uid == uid) then
    M.map (fun r =>
      if r.contract_address == contract_address && r.uid == uid then
        { r with hotkey := hotkey, coldkey := coldkey, evm_address := evm_address,
                 daily_volumes := daily_volumes, weighted_volume := weighted_volume,
                 score := score }
      else r)
  else
    M ++ [⟨contract_address, uid, hotkey, coldkey, evm_address, daily_volumes,
      weighted_volume, score⟩]

/-- `get_all_miner_data`: rows of the given contract, `ORDER BY score DESC`. -/
def get_all_miner_data (contract_address : String) (M : List MinerRow) :
    List MinerDict :=
  (List.insertionSort (fun a b : MinerRow => b.score ≤ a.score)
    (M.filter (fun r => r.contract_address == contract_address))).map minerRowToDict

/-- The three contract-scoped tables of `validator_data.db`. -/
structure ValidatorDB where
  bet_events : BetTable
  miner_data : List MinerRow
  snapshots : List SnapshotRow
deriving DecidableEq

/-- `clear_contract_data(contract_address=Y)` (`database.py` lines 642–656,
the specific-contract branch): `DELETE ... WHERE contract_address = Y` on
all three tables. -/
def clear_contract_data (contract_address : String) (db : ValidatorDB) :
    ValidatorDB :=
  ⟨db.bet_events.filter (fun r => !(r.contract_address == contract_address)),
    db.miner_data.filter (fun r => !(r.contract_address == contract_address)),
    db.snapshots.filter (fun r => !(r.contract_address == contract_address))⟩

/-- The key tuple of the `UNIQUE` constraint on `bet_events`. -/
def betKeyTuple (r : BetRow) : String × String × ℕ × ℕ × ℕ :=
  (r.contract_address, r.evm_address, r.game_id, r.block_number, r.side)

/-- Number of stored rows sharing the uniqueness key of `row`. -/
def countBetKey (row : BetRow) (T : BetTable) : ℕ :=
  (T.filter (fun r => sameBetKey r row)).length

/-- The invariant the `UNIQUE` constraint enforces on the table: no two rows
share a key. -/
def BetTableWF (T : BetTable) : Prop :=
  T.Pairwise (fun r s => betKeyTuple r ≠ betKeyTuple s)

/-! ## Helper lemmas -/

theorem sameBetKey_iff (r s : BetRow) :
    sameBetKey r s = true ↔ betKeyTuple r = betKeyTuple s := by
  simp [sameBetKey, betKeyTuple, Prod.ext_iff, and_assoc]

/-! ## C3: decay-aggregator window correctness -/

/-- C3: for events at 0, 1, 2, 6 and 8 days before `now` with amounts
10, 20, 30, 40 and 50, `calculate_time_decayed_volume` returns
`daily_volumes = [10, 20, 30, 0, 0, 0, 40]` and decayed volume `52`
under the default `TIME_DECAY_WEIGHTS`; the day-8 event (amount 50)
contributes to neither output. -/
theorem decay_aggregator_window_example :
    calculate_time_decayed_volume 1728000
      [⟨1, .float 10, 0, 100, 1728000⟩,
       ⟨2, .float 20, 0, 101, 1728000 - 86400⟩,
       ⟨3, .float 30, 0, 102, 1728000 - 172800⟩,
       ⟨4, .float 40, 0, 103, 1728000 - 518400⟩,
       ⟨5, .float 50, 0, 104, 1728000 - 691200⟩] =
      (52, [10, 20, 30, 0, 0, 0, 40]) := by
  have h0 : Int.fdiv 0 86400 = 0 := by decide
  have h1 : Int.fdiv 86400 86400 = 1 := by decide
  have h2 : Int.fdiv 172800 86400 = 2 := by decide
  have h6 : Int.fdiv 518400 86400 = 6 := by decide
  have h8 : Int.fdiv 691200 86400 = 8 := by decide
  simp only [calculate_time_decayed_volume, List.foldl, TIME_DECAY_WEIGHTS,
    pyAmountToTao, List.replicate]
  norm_num [h0, h1, h2, h6, h8, addAt, List.zip, List.zipWith]

/-! ## C10: snapshot totals -/

/-- C10: a snapshot written by `save_snapshot` stores
`total_miners = ` the number of score entries strictly greater than 0
(not the total number of participants) and
`total_volume = ` the sum of all volume values; reading the snapshot back
via `get_latest_snapshot` returns exactly these totals. -/
theorem snapshot_totals (block_number : ℕ) (scores volumes : List (ℕ × ℚ))
    (contract_address : String) (S : List SnapshotRow) :
    (get_latest_snapshot contract_address
        (save_snapshot block_number scores volumes contract_address S)).map
        (fun r => (r.total_miners, r.total_volume)) =
      some ((scores.filter (fun p => decide (0 < p.2))).length,
        (volumes.map Prod.snd).sum) := by
  unfold get_latest_snapshot save_snapshot
  rw [List.filter_append]
  simp

/-! ## C6: chain log reader error containment -/

/-- C6 (amended): an exception raised by the outer log fetch — including
rate-limit and timeout errors, in particular every message classified by
`is_rate_limit_error` — makes `get_bet_events` return the empty sequence
with the cache untouched, instead of propagating; an exception while
decoding an individual log (modelled by `decode_ok = false`) only skips
that log: the remaining decoded events are returned, not an empty
sequence. -/
theorem chain_reader_error_containment (c : Chain)
    (contract_address address : String) (from_block : ℕ) (to_block : Option ℕ)
    (T : BetTable) (msg : String) :
    get_bet_events c (.error msg) contract_address address from_block to_block T
      = ([], T) ∧
    (is_rate_limit_error msg = true →
      get_bet_events c (.error msg) contract_address address from_block to_block T
        = ([], T)) ∧
    (get_bet_events c .ok contract_address address from_block to_block T).1 =
      (chainLogsFor c address from_block (to_block.getD c.current_block)).filter
        (fun e => e.decode_ok) := by
  exact ⟨rfl, fun _ => rfl, rfl⟩

theorem chain_reader_error_containment_witness :
    get_bet_events ⟨[⟨1, "a", 0, 5, 10, 100, true⟩], 50⟩
        (.error "HTTP 429 Too Many Requests") "k" "a" 0 none [] = ([], []) ∧
    is_rate_limit_error "HTTP 429 Too Many Requests" = true :=
  ⟨(chain_reader_error_containment ⟨[⟨1, "a", 0, 5, 10, 100, true⟩], 50⟩
      "k" "a" 0 none [] "HTTP 429 Too Many Requests").1, by decide⟩

/-- C6 counterexample: an exception raised while processing (decoding) an
individual log does not make the call return an empty sequence — the
offending log is skipped and the remaining event is still returned, so the
result is `[e₂]`, not `[]`. -/
theorem decode_error_skips_single_log :
    (get_bet_events ⟨[⟨1, "a", 0, 5, 50, 100, false⟩, ⟨2, "a", 1, 5, 60, 100, true⟩], 1000⟩
        .ok "k" "a" 0 none []).1 = [⟨2, "a", 1, 5, 60, 100, true⟩] ∧
    (get_bet_events ⟨[⟨1, "a", 0, 5, 50, 100, false⟩, ⟨2, "a", 1, 5, 60, 100, true⟩], 1000⟩
        .ok "k" "a" 0 none []).1 ≠ [] := by
  constructor
  · decide
  · decide

/-! ## C5: the from-block decision of the window reconciler -/

/-- C5 (amended): when cached events exist and the cache is not fresh
enough to skip the chain read, the reconciler queries the chain from
`latest_cached_block + 1` — without clamping to `floor_block`; this
coincides with the claimed `max(floor_block, latest_cached_block + 1)`
exactly when `latest_cached_block + 1 ≥ floor_block`.  When no cached
events exist, the query starts at `floor_block`. -/
theorem reconcile_from_block_spec (current_block : ℕ) (cached : List BetDict) :
    (cached ≠ [] → ¬(current_block - 100 ≤ maxBlockOf cached) →
      reconcile_from_block current_block cached = some (maxBlockOf cached + 1) ∧
      (floor_block_of current_block ≤ maxBlockOf cached + 1 →
        reconcile_from_block current_block cached =
          some (max (floor_block_of current_block) (maxBlockOf cached + 1)))) ∧
    (cached = [] →
      reconcile_from_block current_block cached =
        some (floor_block_of current_block)) := by
  constructor
  · intro hne hfr
    have hE : cached.isEmpty = false := by
      cases cached with
      | nil => exact absurd rfl hne
      | cons a l => rfl
    refine ⟨by simp [reconcile_from_block, hE, hfr], fun hle => ?_⟩
    simp [reconcile_from_block, hE, hfr, Nat.max_eq_right hle]
  · intro h
    subst h
    rfl

theorem reconcile_from_block_spec_witness :
    ([⟨1, .float 1, 0, 200, 1000000⟩] : List BetDict) ≠ [] ∧
    ¬((1000 : ℕ) - 100 ≤ maxBlockOf [⟨1, .float 1, 0, 200, 1000000⟩]) ∧
    reconcile_from_block 1000 [⟨1, .float 1, 0, 200, 1000000⟩] = some 201 ∧
    reconcile_from_block 1000 [] = some (floor_block_of 1000) :=
  ⟨by simp, by decide,
    ((reconcile_from_block_spec 1000 [⟨1, .float 1, 0, 200, 1000000⟩]).1
      (by simp) (by decide)).1,
    (reconcile_from_block_spec 1000 []).2 rfl⟩

/-- C5 counterexample: with a cached event at block 5 (a reachable cache
state: block timestamps fall back to "now" when the block lookup fails)
and `current_block = 100000`, the code queries the chain from block 6,
which is below `floor_block = 49600` and differs from
`max(floor_block, latest_cached_block + 1)`; the event at on-chain block
10 — below `floor_block` — is fetched and returned. -/
theorem from_block_below_floor :
    reconcile_from_block 100000 [⟨7, .float 1, 0, 5, 1000000⟩] = some 6 ∧
    floor_block_of 100000 = 49600 ∧
    (6 : ℕ) < floor_block_of 100000 ∧
    ((get_bets_last_7_days ⟨[⟨9, "a", 0, WEI_PER_TAO, 10, 1000000, true⟩], 100000⟩
        .ok "k" "a" 1000000 [⟨"k", "a", 7, 1, 0, 5, 1000000⟩]).1).map
        (fun d => d.block_number) = [5, 10] := by
  refine ⟨by decide, by decide, by decide, ?_⟩
  decide

/-! ## C2: idempotent ingestion -/

theorem cache_bet_event_eq (evm : String) (game_id : ℕ) (amount : ℚ) (side : ℕ)
    (block_number : ℕ) (timestamp : ℤ) (contract : String) (T : BetTable) :
    cache_bet_event evm game_id amount side block_number timestamp contract T =
      if T.any (fun r => sameBetKey r
          ⟨contract, evm, game_id, amount, side, block_number, timestamp⟩)
      then (T, none)
      else (T ++ [⟨contract, evm, game_id, amount, side, block_number, timestamp⟩],
        none) := rfl

theorem sameBetKey_self (r : BetRow) : sameBetKey r r = true := by
  simp [sameBetKey]

theorem countBetKey_le_one {T : BetTable} (hWF : BetTableWF T) (row : BetRow) :
    countBetKey row T ≤ 1 := by
  induction T with
  | nil => simp [countBetKey]
  | cons r t ih =>
    have hWFt : BetTableWF t := hWF.of_cons
    have hhead : ∀ s ∈ t, betKeyTuple r ≠ betKeyTuple s :=
      fun s hs => List.rel_of_pairwise_cons hWF hs
    by_cases h : sameBetKey r row = true
    · have hkey : betKeyTuple r = betKeyTuple row := (sameBetKey_iff r row).mp h
      have hzero : countBetKey row t = 0 := by
        unfold countBetKey
        rw [List.length_eq_zero]
        rw [List.filter_eq_nil_iff]
        intro s hs hcon
        exact hhead s hs (hkey.trans ((sameBetKey_iff s row).mp hcon).symm)
      unfold countBetKey at hzero ⊢
      simp [List.filter_cons, h, hzero]
    · unfold countBetKey at ih ⊢
      simpa [List.filter_cons, h] using ih hWFt

theorem countBetKey_pos_of_any {T : BetTable} {row : BetRow}
    (h : T.any (fun r => sameBetKey r row) = true) : 1 ≤ countBetKey row T := by
  rcases List.any_eq_true.mp h with ⟨r, hr, hkey⟩
  unfold countBetKey
  have : r ∈ T.filter (fun r => sameBetKey r row) := List.mem_filter.mpr ⟨hr, hkey⟩
  exact List.length_pos_of_mem this

theorem countBetKey_insert (evm : String) (game_id : ℕ) (amount : ℚ) (side : ℕ)
    (block_number : ℕ) (timestamp : ℤ) (contract : String) (T : BetTable)
    (hWF : BetTableWF T) :
    countBetKey ⟨contract, evm, game_id, amount, side, block_number, timestamp⟩
      (cache_bet_event evm game_id amount side block_number timestamp contract T).1
      = 1 := by
  rw [cache_bet_event_eq]
  set row : BetRow := ⟨contract, evm, game_id, amount, side, block_number, timestamp⟩
    with hrow
  by_cases h : T.any (fun r => sameBetKey r row) = true
  · simp only [h, if_true]
    exact Nat.le_antisymm (countBetKey_le_one hWF row) (countBetKey_pos_of_any h)
  · simp only [h, Bool.false_eq_true, if_false]
    have hTzero : T.filter (fun r => sameBetKey r row) = [] := by
      rw [List.filter_eq_nil_iff]
      intro r hr hcon
      exact h (List.any_eq_true.mpr ⟨r, hr, hcon⟩)
    unfold countBetKey
    rw [List.filter_append, hTzero]
    simp [sameBetKey_self row]

theorem second_put_noop (evm : String) (game_id : ℕ) (amount : ℚ) (side : ℕ)
    (block_number : ℕ) (timestamp : ℤ) (contract : String) (T : BetTable) :
    cache_bet_event evm game_id amount side block_number timestamp contract
        (cache_bet_event evm game_id amount side block_number timestamp contract T).1 =
      ((cache_bet_event evm game_id amount side block_number timestamp contract T).1,
        none) := by
  set row : BetRow := ⟨contract, evm, game_id, amount, side, block_number, timestamp⟩
    with hrow
  by_cases h : T.any (fun r => sameBetKey r row) = true
  · have h1 : cache_bet_event evm game_id amount side block_number timestamp contract T
        = (T, none) := by
      rw [cache_bet_event_eq, ← hrow, if_pos h]
    rw [h1]
    show cache_bet_event evm game_id amount side block_number timestamp contract T
      = (T, none)
    rw [cache_bet_event_eq, ← hrow, if_pos h]
  · have h1 : cache_bet_event evm game_id amount side block_number timestamp contract T
        = (T ++ [row], none) := by
      rw [cache_bet_event_eq, ← hrow, if_neg h]
    have happ : (T ++ [row]).any (fun r => sameBetKey r row) = true := by
      rw [List.any_append]
      simp [sameBetKey_self row]
    rw [h1]
    show cache_bet_event evm game_id amount side block_number timestamp contract
        (T ++ [row]) = (T ++ [row], none)
    rw [cache_bet_event_eq, ← hrow, if_pos happ]

/-- C2 (amended): inserting the same bet event twice stores exactly one row
under the uniqueness key `(contract, address, game_id, block_number,
side)`: the second call is a no-op that raises no error and adds no
duplicate row, and any `get_cached_bet_events` read is unaffected by the
repeated insert.  The Python `cache_bet_event` has no return value (it
returns `None`, modelled as the second component being `none`), so it does
not report whether a new row was created. -/
theorem put_idempotent (evm : String) (game_id : ℕ) (amount : ℚ) (side : ℕ)
    (block_number : ℕ) (timestamp : ℤ) (contract : String) (T : BetTable)
    (hWF : BetTableWF T) :
    cache_bet_event evm game_id amount side block_number timestamp contract
        (cache_bet_event evm game_id amount side block_number timestamp contract T).1 =
      ((cache_bet_event evm game_id amount side block_number timestamp contract T).1,
        none) ∧
    countBetKey ⟨contract, evm, game_id, amount, side, block_number, timestamp⟩
        (cache_bet_event evm game_id amount side block_number timestamp contract
          (cache_bet_event evm game_id amount side block_number timestamp contract T).1).1
      = 1 ∧
    (cache_bet_event evm game_id amount side block_number timestamp contract T).2
      = none ∧
    (∀ a ts K, get_cached_bet_events a ts K
        (cache_bet_event evm game_id amount side block_number timestamp contract
          (cache_bet_event evm game_id amount side block_number timestamp contract T).1).1 =
      get_cached_bet_events a ts K
        (cache_bet_event evm game_id amount side block_number timestamp contract T).1) := by
  have hsecond := second_put_noop evm game_id amount side block_number timestamp contract T
  refine ⟨hsecond, ?_, ?_, ?_⟩
  · rw [hsecond]
    exact countBetKey_insert evm game_id amount side block_number timestamp contract T hWF
  · rw [cache_bet_event_eq]
    by_cases h : T.any (fun r => sameBetKey r
        ⟨contract, evm, game_id, amount, side, block_number, timestamp⟩) = true <;>
      simp [h]
  · intro a ts K
    rw [hsecond]

theorem put_idempotent_witness :
    BetTableWF [] ∧
    cache_bet_event "a" 3 1 0 77 1000 "k"
        (cache_bet_event "a" 3 1 0 77 1000 "k" []).1 =
      ((cache_bet_event "a" 3 1 0 77 1000 "k" []).1, none) ∧
    countBetKey ⟨"k", "a", 3, 1, 0, 77, 1000⟩
        (cache_bet_event "a" 3 1 0 77 1000 "k"
          (cache_bet_event "a" 3 1 0 77 1000 "k" []).1).1 = 1 :=
  ⟨List.Pairwise.nil,
    (put_idempotent "a" 3 1 0 77 1000 "k" [] List.Pairwise.nil).1,
    (put_idempotent "a" 3 1 0 77 1000 "k" [] List.Pairwise.nil).2.1⟩

/-- C2 counterexample: the insert does create a new row (the table grows
from 0 to 1 rows), but the Python function's return value is `None` — not
a boolean reporting that a new row was created. -/
theorem put_returns_no_insert_flag :
    ((cache_bet_event "a" 3 1 0 77 1000 "k" []).1).length = 1 ∧
    (cache_bet_event "a" 3 1 0 77 1000 "k" []).2 = none ∧
    ∀ b : Bool, (cache_bet_event "a" 3 1 0 77 1000 "k" []).2 ≠ some b := by
  exact ⟨rfl, rfl, fun b => by simp [cache_bet_event]⟩

/-! ## C7: contract isolation -/

theorem filter_map_invariant {α : Type} (p : α → Bool) (f : α → α) (l : List α)
    (h1 : ∀ x, p x = true → f x = x) (h2 : ∀ x, p (f x) = p x) :
    (l.map f).filter p = l.filter p := by
  induction l with
  | nil => rfl
  | cons x t ih =>
    cases hp : p x with
    | true => simp [List.filter_cons, h2 x, hp, h1 x hp, ih]
    | false => simp [List.filter_cons, h2 x, hp, ih]

/-- C7: data written under contract `X` is invisible to every read scoped
to a different contract `Y` — cached bet events, snapshots and miner
records alike — and purging contract `Y` via `clear_contract_data` deletes
no row stored under `X`. -/
theorem contract_isolation (X Y : String) (hXY : X ≠ Y)
    (evm a : String) (g : ℕ) (am : ℚ) (sd blk : ℕ) (ts since : ℤ) (T : BetTable)
    (b : ℕ) (sc vol : List (ℕ × ℚ)) (S : List SnapshotRow)
    (uid : ℕ) (hk ck : String) (ev : Option String) (dv : List ℚ) (wv scr : ℚ)
    (M : List MinerRow) (db : ValidatorDB) :
    get_cached_bet_events a since Y (cache_bet_event evm g am sd blk ts X T).1 =
      get_cached_bet_events a since Y T ∧
    get_latest_snapshot Y (save_snapshot b sc vol X S) = get_latest_snapshot Y S ∧
    get_all_miner_data Y (update_miner_data uid hk ck ev dv wv scr X M) =
      get_all_miner_data Y M ∧
    (∀ r ∈ db.bet_events, r.contract_address = X →
      r ∈ (clear_contract_data Y db).bet_events) ∧
    (∀ r ∈ db.miner_data, r.contract_address = X →
      r ∈ (clear_contract_data Y db).miner_data) ∧
    (∀ r ∈ db.snapshots, r.contract_address = X →
      r ∈ (clear_contract_data Y db).snapshots) := by
  have hbeq : (X == Y) = false := beq_eq_false_iff_ne.mpr hXY
  have hbeqYX : ∀ r : MinerRow, r.contract_address = Y →
      (r.contract_address == X) = false :=
    fun r hr => beq_eq_false_iff_ne.mpr (by rw [hr]; exact fun hc => hXY hc.symm)
  refine ⟨?_, ?_, ?_, ?_, ?_, ?_⟩
  · rw [cache_bet_event_eq]
    by_cases hA : T.any (fun r => sameBetKey r ⟨X, evm, g, am, sd, blk, ts⟩) = true
    · rw [if_pos hA]
    · rw [if_neg hA]
      show get_cached_bet_events a since Y
          (T ++ [⟨X, evm, g, am, sd, blk, ts⟩]) = get_cached_bet_events a since Y T
      unfold get_cached_bet_events
      rw [List.filter_append]
      simp [hbeq]
  · unfold get_latest_snapshot save_snapshot
    rw [List.filter_append]
    simp [hbeq]
  · unfold update_miner_data
    by_cases hA : M.any (fun r => r.contract_address == X && r.uid == uid) = true
    · rw [if_pos hA]
      unfold get_all_miner_data
      rw [filter_map_invariant]
      · intro r hp
        rw [hbeqYX r (by simpa using hp)]
        simp
      · intro r
        by_cases hc : (r.contract_address == X && r.uid == uid) = true <;> simp [hc]
    · rw [if_neg hA]
      unfold get_all_miner_data
      rw [List.filter_append]
      simp [hbeq]
  · intro r hr hX
    exact List.mem_filter.mpr ⟨hr, by simp [hX, hbeq]⟩
  · intro r hr hX
    exact List.mem_filter.mpr ⟨hr, by simp [hX, hbeq]⟩
  · intro r hr hX
    exact List.mem_filter.mpr ⟨hr, by simp [hX, hbeq]⟩

theorem contract_isolation_witness :
    ("x" : String) ≠ "y" ∧
    get_cached_bet_events "a" 0 "y" (cache_bet_event "a" 1 1 0 5 10 "x" []).1 =
      get_cached_bet_events "a" 0 "y" [] ∧
    (⟨"x", "a", 1, 1, 0, 5, 10⟩ : BetRow) ∈
      (clear_contract_data "y" ⟨[⟨"x", "a", 1, 1, 0, 5, 10⟩], [], []⟩).bet_events :=
  ⟨by decide,
    (contract_isolation "x" "y" (by decide) "a" "a" 1 1 0 5 10 0 [] 0 [] [] [] 0
      "" "" none [] 0 0 [] ⟨[⟨"x", "a", 1, 1, 0, 5, 10⟩], [], []⟩).1,
    (contract_isolation "x" "y" (by decide) "a" "a" 1 1 0 5 10 0 [] 0 [] [] [] 0
      "" "" none [] 0 0 [] ⟨[⟨"x", "a", 1, 1, 0, 5, 10⟩], [], []⟩).2.2.2.1
      ⟨"x", "a", 1, 1, 0, 5, 10⟩ (List.mem_singleton.mpr rfl) rfl⟩

/-! ## C4 and C8: reward normalization -/

theorem calculate_volume_rewards_eq (v : List (ℕ × ℚ)) :
    calculate_volume_rewards v =
      if v.isEmpty then []
      else if ((sorted_uids v).map (lookupVolume v)).sum = 0
      then List.replicate (sorted_uids v).length 0
      else ((sorted_uids v).map (lookupVolume v)).map
        (fun x => x / ((sorted_uids v).map (lookupVolume v)).sum) := rfl

theorem lookupVolume_cons_self (k : ℕ) (b : ℚ) (t : List (ℕ × ℚ)) :
    lookupVolume ((k, b) :: t) k = b := by
  simp [lookupVolume, List.lookup]

theorem lookupVolume_cons_ne (k u : ℕ) (b : ℚ) (t : List (ℕ × ℚ))
    (h : (u == k) = false) : lookupVolume ((k, b) :: t) u = lookupVolume t u := by
  simp [lookupVolume, List.lookup, h]

theorem map_lookupVolume_keys {v : List (ℕ × ℚ)}
    (hnd : (v.map Prod.fst).Nodup) :
    (v.map Prod.fst).map (lookupVolume v) = v.map Prod.snd := by
  induction v with
  | nil => rfl
  | cons p t ih =>
    have hnd' : (p.1 :: t.map Prod.fst).Nodup := by simpa using hnd
    have hpn : p.1 ∉ t.map Prod.fst := (List.nodup_cons.mp hnd').1
    have htl : (t.map Prod.fst).Nodup := (List.nodup_cons.mp hnd').2
    have hstep : ∀ u ∈ t.map Prod.fst,
        lookupVolume (p :: t) u = lookupVolume t u := by
      intro u hu
      have hne : (u == p.1) = false :=
        beq_eq_false_iff_ne.mpr (fun hEq => hpn (hEq ▸ hu))
      obtain ⟨k, b⟩ := p
      exact lookupVolume_cons_ne k u b t hne
    simp only [List.map_cons]
    congr 1
    · obtain ⟨k, b⟩ := p
      exact lookupVolume_cons_self k b t
    · rw [List.map_congr_left hstep, ih htl]

theorem zip_self_map {α β : Type} (l : List α) (g : α → β) :
    l.zip (l.map g) = l.map (fun a => (a, g a)) := by
  induction l with
  | nil => rfl
  | cons a t ih => simp [ih]

theorem zip_self_replicate {α β : Type} (l : List α) (x : β) :
    l.zip (List.replicate l.length x) = l.map (fun a => (a, x)) := by
  induction l with
  | nil => rfl
  | cons a t ih => simp [List.replicate, ih]

theorem sum_map_div (l : List ℚ) (c : ℚ) :
    (l.map (fun x => x / c)).sum = l.sum / c := by
  induction l with
  | nil => simp
  | cons a t ih => simp [ih, add_div]

theorem raw_volumes_perm {v : List (ℕ × ℚ)} (hnd : (v.map Prod.fst).Nodup) :
    ((sorted_uids v).map (lookupVolume v)).Perm (v.map Prod.snd) := by
  have h := (List.perm_insertionSort (fun a b : ℕ => a ≤ b) (v.map Prod.fst)).map
    (lookupVolume v)
  rw [map_lookupVolume_keys hnd] at h
  exact h

theorem rewardPairs_eq_of_total_ne {v : List (ℕ × ℚ)}
    (hnd : (v.map Prod.fst).Nodup) (htot : (v.map Prod.snd).sum ≠ 0) :
    rewardPairs v = (sorted_uids v).map
      (fun u => (u, lookupVolume v u / (v.map Prod.snd).sum)) := by
  have hsum : ((sorted_uids v).map (lookupVolume v)).sum = (v.map Prod.snd).sum :=
    (raw_volumes_perm hnd).sum_eq
  have hne : v ≠ [] := by
    intro h
    exact htot (by simp [h])
  have hE : v.isEmpty = false := by
    cases v with
    | nil => exact absurd rfl hne
    | cons a l => rfl
  unfold rewardPairs
  rw [calculate_volume_rewards_eq, hE]
  simp only [Bool.false_eq_true, if_false]
  rw [hsum, if_neg htot, List.map_map, zip_self_map]
  rfl

theorem rewardPairs_eq_of_total_zero {v : List (ℕ × ℚ)}
    (hnd : (v.map Prod.fst).Nodup) (htot : (v.map Prod.snd).sum = 0)
    (hne : v ≠ []) :
    rewardPairs v = (sorted_uids v).map (fun u => (u, (0 : ℚ))) := by
  have hsum : ((sorted_uids v).map (lookupVolume v)).sum = (v.map Prod.snd).sum :=
    (raw_volumes_perm hnd).sum_eq
  have hE : v.isEmpty = false := by
    cases v with
    | nil => exact absurd rfl hne
    | cons a l => rfl
  unfold rewardPairs
  rw [calculate_volume_rewards_eq, hE]
  simp only [Bool.false_eq_true, if_false]
  rw [hsum, if_pos htot]
  have : (sorted_uids v).length = ((sorted_uids v).map (lookupVolume v)).length := by
    simp
  rw [zip_self_replicate]

theorem lookupVolume_eq_of_mem {v : List (ℕ × ℚ)}
    (hnd : (v.map Prod.fst).Nodup) {u : ℕ} {x : ℚ} (hm : (u, x) ∈ v) :
    lookupVolume v u = x := by
  induction v with
  | nil => cases hm
  | cons p t ih =>
    have hnd' : (p.1 :: t.map Prod.fst).Nodup := by simpa using hnd
    rcases List.mem_cons.mp hm with hEq | hm'
    · rw [← hEq]
      exact lookupVolume_cons_self u x t
    · have hu : u ∈ t.map Prod.fst :=
        List.mem_map.mpr ⟨(u, x), hm', rfl⟩
      have hne : (u == p.1) = false :=
        beq_eq_false_iff_ne.mpr (fun hEq => (List.nodup_cons.mp hnd').1 (hEq ▸ hu))
      obtain ⟨k, b⟩ := p
      rw [lookupVolume_cons_ne k u b t hne]
      exact ih (List.nodup_cons.mp hnd').2 hm'

theorem mem_sorted_uids {v : List (ℕ × ℚ)} {p : ℕ × ℚ} (hm : p ∈ v) :
    p.1 ∈ sorted_uids v :=
  (List.perm_insertionSort (fun a b : ℕ => a ≤ b) (v.map Prod.fst)).mem_iff.mpr
    (List.mem_map.mpr ⟨p, hm, rfl⟩)

/-- C4: for nonnegative input volumes with distinct participant ids, the
reward normalizer assigns `volume / total` to each participant when the
total is nonzero, `0` to every zero-volume participant, and a vector
summing to `1` whenever any participant has nonzero volume; in particular
`{A:0, B:30, C:70} ↦ {A:0, B:0.3, C:0.7}` and an all-zero input yields the
all-zero vector with no division error. -/
theorem volume_rewards_normalization (volumes : List (ℕ × ℚ))
    (hnd : (volumes.map Prod.fst).Nodup) (hpos : ∀ p ∈ volumes, 0 ≤ p.2) :
    ((volumes.map Prod.snd).sum ≠ 0 →
      ∀ p ∈ volumes,
        (p.1, p.2 / (volumes.map Prod.snd).sum) ∈ rewardPairs volumes) ∧
    (∀ p ∈ volumes, p.2 = 0 → (p.1, (0 : ℚ)) ∈ rewardPairs volumes) ∧
    ((∃ p ∈ volumes, p.2 ≠ 0) → (calculate_volume_rewards volumes).sum = 1) ∧
    calculate_volume_rewards [(0, 0), (1, 30), (2, 70)] = [0, 3/10, 7/10] ∧
    calculate_volume_rewards [(0, 0), (1, 0)] = [0, 0] := by
  have hmem_div : (volumes.map Prod.snd).sum ≠ 0 →
      ∀ p ∈ volumes,
        (p.1, p.2 / (volumes.map Prod.snd).sum) ∈ rewardPairs volumes := by
    intro htot p hp
    rw [rewardPairs_eq_of_total_ne hnd htot]
    refine List.mem_map.mpr ⟨p.1, mem_sorted_uids hp, ?_⟩
    rw [lookupVolume_eq_of_mem hnd (by exact hp)]
  refine ⟨hmem_div, ?_, ?_, ?_, ?_⟩
  · intro p hp hp0
    by_cases htot : (volumes.map Prod.snd).sum = 0
    · have hne : volumes ≠ [] := by
        intro h
        rw [h] at hp
        cases hp
      rw [rewardPairs_eq_of_total_zero hnd htot hne]
      exact List.mem_map.mpr ⟨p.1, mem_sorted_uids hp, rfl⟩
    · have := hmem_div htot p hp
      rw [hp0, zero_div] at this
      exact this
  · rintro ⟨p, hp, hp0⟩
    have hple : p.2 ≤ (volumes.map Prod.snd).sum :=
      List.single_le_sum (fun x hx => by
        rcases List.mem_map.mp hx with ⟨q, hq, rfl⟩
        exact hpos q hq) p.2 (List.mem_map.mpr ⟨p, hp, rfl⟩)
    have hppos : 0 < p.2 := lt_of_le_of_ne (hpos p hp) (Ne.symm hp0)
    have htot : (volumes.map Prod.snd).sum ≠ 0 :=
      (ne_of_gt (lt_of_lt_of_le hppos hple))
    have hsum : ((sorted_uids volumes).map (lookupVolume volumes)).sum =
        (volumes.map Prod.snd).sum := (raw_volumes_perm hnd).sum_eq
    have hne : volumes ≠ [] := by
      intro h
      rw [h] at hp
      cases hp
    have hE : volumes.isEmpty = false := by
      cases volumes with
      | nil => exact absurd rfl hne
      | cons a l => rfl
    rw [calculate_volume_rewards_eq, hE]
    simp only [Bool.false_eq_true, if_false]
    rw [hsum, if_neg htot, sum_map_div, hsum, div_self htot]
  · have l0 : lookupVolume [(0, 0), (1, 30), (2, 70)] 0 = 0 := rfl
    have l1 : lookupVolume [(0, 0), (1, 30), (2, 70)] 1 = 30 := rfl
    have l2 : lookupVolume [(0, 0), (1, 30), (2, 70)] 2 = 70 := rfl
    norm_num [calculate_volume_rewards, sorted_uids, List.insertionSort,
      List.orderedInsert, l0, l1, l2, -Prod.mk_zero_zero]
  · have l0 : lookupVolume [(0, 0), (1, 0)] 0 = 0 := rfl
    have l1 : lookupVolume [(0, 0), (1, 0)] 1 = 0 := rfl
    norm_num [calculate_volume_rewards, sorted_uids, List.insertionSort,
      List.orderedInsert, List.replicate, l0, l1, -Prod.mk_zero_zero]

theorem volume_rewards_normalization_witness :
    (([(0, 0), (1, 30), (2, 70)] : List (ℕ × ℚ)).map Prod.snd).sum ≠ 0 ∧
    ((1 : ℕ), (30 : ℚ) /
        (([(0, 0), (1, 30), (2, 70)] : List (ℕ × ℚ)).map Prod.snd).sum) ∈
      rewardPairs [(0, 0), (1, 30), (2, 70)] ∧
    calculate_volume_rewards [(0, 0), (1, 30), (2, 70)] = [0, 3/10, 7/10] := by
  have hnd : (([(0, 0), (1, 30), (2, 70)] : List (ℕ × ℚ)).map Prod.fst).Nodup := by
    simp [-Prod.mk_zero_zero]
  have hpos : ∀ p ∈ ([(0, 0), (1, 30), (2, 70)] : List (ℕ × ℚ)), 0 ≤ p.2 := by
    intro p hp
    rcases List.mem_cons.mp hp with rfl | hp
    · norm_num
    rcases List.mem_cons.mp hp with rfl | hp
    · norm_num
    rcases List.mem_cons.mp hp with rfl | hp
    · norm_num
    cases hp
  have htot : (([(0, 0), (1, 30), (2, 70)] : List (ℕ × ℚ)).map Prod.snd).sum ≠ 0 := by
    norm_num [-Prod.mk_zero_zero]
  exact ⟨htot,
    (volume_rewards_normalization [(0, 0), (1, 30), (2, 70)] hnd hpos).1 htot
      (1, 30) (by simp [-Prod.mk_zero_zero]),
    (volume_rewards_normalization [(0, 0), (1, 30), (2, 70)] hnd hpos).2.2.2.1⟩

theorem lookup_perm_nodup (u : ℕ) : ∀ {v w : List (ℕ × ℚ)}, v.Perm w →
    (v.map Prod.fst).Nodup → v.lookup u = w.lookup u := by
  intro v w h
  induction h with
  | nil => intro _; rfl
  | cons x h ih =>
    intro hnd
    obtain ⟨k, b⟩ := x
    rw [List.map_cons] at hnd
    cases hb : u == k with
    | true => simp [List.lookup, hb]
    | false => simp [List.lookup, hb, ih (List.nodup_cons.mp hnd).2]
  | swap x y l =>
    intro hnd
    obtain ⟨k₁, b₁⟩ := x
    obtain ⟨k₂, b₂⟩ := y
    rw [List.map_cons, List.map_cons] at hnd
    have hk : k₂ ≠ k₁ := by
      intro hEq
      exact (List.nodup_cons.mp hnd).1 (by simp [hEq])
    cases hb1 : u == k₁ <;> cases hb2 : u == k₂
    · simp [List.lookup, hb1, hb2]
    · simp [List.lookup, hb1, hb2]
    · simp [List.lookup, hb1, hb2]
    · have h1 : u = k₁ := beq_iff_eq.mp hb1
      have h2 : u = k₂ := beq_iff_eq.mp hb2
      exact absurd (h2 ▸ h1) hk
  | trans h₁ h₂ ih₁ ih₂ =>
    intro hnd
    have hnd₂ := (h₁.map Prod.fst).nodup hnd
    exact (ih₁ hnd).trans (ih₂ hnd₂)

/-- C8: the reward normalizer is deterministic — the same input mapping
always produces the identical output — and re-ordering the input mapping
(a permutation of its key–value pairs) changes neither the output array
nor any individual participant's reward. -/
theorem volume_rewards_order_independent (v w : List (ℕ × ℚ)) (hperm : v.Perm w)
    (hnd : (v.map Prod.fst).Nodup) :
    calculate_volume_rewards v = calculate_volume_rewards v ∧
    calculate_volume_rewards v = calculate_volume_rewards w ∧
    rewardPairs v = rewardPairs w := by
  have hs1 : List.Sorted (fun a b : ℕ => a ≤ b) (sorted_uids v) :=
    List.sorted_insertionSort _ _
  have hs2 : List.Sorted (fun a b : ℕ => a ≤ b) (sorted_uids w) :=
    List.sorted_insertionSort _ _
  have hp : (sorted_uids v).Perm (sorted_uids w) :=
    (List.perm_insertionSort _ _).trans
      ((hperm.map Prod.fst).trans (List.perm_insertionSort _ _).symm)
  have huids : sorted_uids v = sorted_uids w :=
    List.eq_of_perm_of_sorted hp hs1 hs2
  have hlook : ∀ x, lookupVolume v x = lookupVolume w x := fun x => by
    unfold lookupVolume
    rw [lookup_perm_nodup x hperm hnd]
  have hE : v.isEmpty = w.isEmpty := by
    cases v with
    | nil =>
      rw [List.Perm.eq_nil hperm.symm]
    | cons a t =>
      cases w with
      | nil => exact absurd (List.Perm.eq_nil hperm) (by simp)
      | cons b s => rfl
  have hmain : calculate_volume_rewards v = calculate_volume_rewards w := by
    rw [calculate_volume_rewards_eq, calculate_volume_rewards_eq, hE, huids,
      List.map_congr_left (fun x _ => hlook x)]
  exact ⟨rfl, hmain, by unfold rewardPairs; rw [huids, hmain]⟩

theorem volume_rewards_order_independent_witness :
    calculate_volume_rewards [(1, 30), (2, 70)] =
      calculate_volume_rewards [(2, 70), (1, 30)] :=
  (volume_rewards_order_independent [(1, 30), (2, 70)] [(2, 70), (1, 30)]
    (List.Perm.swap (2, 70) (1, 30) []) (by simp)).2.1

/-! ## C9: single wei-to-native conversion -/

theorem mem_get_cached_bet_events {a : String} {ts : ℤ} {K : String}
    {T : BetTable} {d : BetDict} (hd : d ∈ get_cached_bet_events a ts K T) :
    ∃ r ∈ T, d = betRowToDict r := by
  unfold get_cached_bet_events sortByTimestampDesc at hd
  rcases List.mem_map.mp hd with ⟨r, hr, rfl⟩
  have hr' := (List.perm_insertionSort
    (fun a b : BetRow => b.timestamp ≤ a.timestamp) _).mem_iff.mp hr
  exact ⟨r, (List.mem_filter.mp hr').1, rfl⟩

/-- C9: the wei-to-native conversion happens exactly once, at ingestion:
freshly decoded chain events are converted by `from_wei` both when cached
(`toBetRow`) and when merged into the window result (`chainEventToDict`);
every event the window reconciler hands downstream carries a `float`
(native-unit) amount, and the decay aggregator uses a `float` amount as-is
— `pyAmountToTao` divides by `10^18` only in the `int` (still-wei) case,
never for an already-converted amount. -/
theorem amount_converted_once :
    (∀ e : ChainEvent, (chainEventToDict e).amount = .float (from_wei e.amount_wei)) ∧
    (∀ (contract addr : String) (e : ChainEvent),
      (toBetRow contract addr e).amount = from_wei e.amount_wei) ∧
    (∀ (c : Chain) (outcome : RpcOutcome) (K A : String) (now : ℤ) (T : BetTable),
      ∀ d ∈ (get_bets_last_7_days c outcome K A now T).1,
        ∃ q : ℚ, d.amount = .float q ∧ pyAmountToTao d.amount = q) ∧
    (∀ q : ℚ, pyAmountToTao (.float q) = q) := by
  refine ⟨fun e => rfl, fun contract addr e => rfl, ?_, fun q => rfl⟩
  intro c outcome K A now T d hd
  simp only [get_bets_last_7_days] at hd
  split at hd
  · rcases mem_get_cached_bet_events hd with ⟨r, _, rfl⟩
    exact ⟨r.amount, rfl, rfl⟩
  · rcases List.mem_append.mp hd with hd' | hd'
    · rcases mem_get_cached_bet_events hd' with ⟨r, _, rfl⟩
      exact ⟨r.amount, rfl, rfl⟩
    · rcases List.mem_map.mp hd' with ⟨e, _, rfl⟩
      exact ⟨from_wei e.amount_wei, rfl, rfl⟩

theorem amount_converted_once_witness :
    betRowToDict ⟨"k", "a", 1, 1, 0, 5, 1000000⟩ ∈
      (get_bets_last_7_days ⟨[], 50⟩ .ok "k" "a" 1000000
        [⟨"k", "a", 1, 1, 0, 5, 1000000⟩]).1 ∧
    ∃ q : ℚ, (betRowToDict ⟨"k", "a", 1, 1, 0, 5, 1000000⟩).amount = .float q ∧
      pyAmountToTao (betRowToDict ⟨"k", "a", 1, 1, 0, 5, 1000000⟩).amount = q :=
  ⟨by decide,
    amount_converted_once.2.2.1 ⟨[], 50⟩ .ok "k" "a" 1000000
      [⟨"k", "a", 1, 1, 0, 5, 1000000⟩]
      (betRowToDict ⟨"k", "a", 1, 1, 0, 5, 1000000⟩) (by decide)⟩

/-! ## C1: incremental window reconciliation -/

theorem isEmpty_false_of_ne_nil {α : Type} {l : List α} (h : l ≠ []) :
    l.isEmpty = false := by
  cases l with
  | nil => exact absurd rfl h
  | cons a t => rfl

theorem cacheChainEvent_eq (K A : String) (e : ChainEvent) (T : BetTable) :
    cacheChainEvent K A e T =
      if T.any (fun r => sameBetKey r (toBetRow K A e)) then T
      else T ++ [toBetRow K A e] := by
  unfold cacheChainEvent toBetRow
  rw [cache_bet_event_eq]
  split <;> rfl

theorem sameBetKey_toBetRow (K A : String) (e e' : ChainEvent) :
    sameBetKey (toBetRow K A e) (toBetRow K A e') = true ↔
      (e.game_id, e.block_number, e.side) =
        (e'.game_id, e'.block_number, e'.side) := by
  rw [sameBetKey_iff]
  simp [betKeyTuple, toBetRow, Prod.ext_iff, and_comm]

theorem cacheAll_eq_append (K A : String) :
    ∀ (evs : List ChainEvent) (T : BetTable),
      (∀ e ∈ evs, ∀ r ∈ T, sameBetKey r (toBetRow K A e) = false) →
      ((evs.map (fun e => (e.game_id, e.block_number, e.side))).Nodup) →
      evs.foldl (fun acc e => cacheChainEvent K A e acc) T =
        T ++ evs.map (toBetRow K A) := by
  intro evs
  induction evs with
  | nil => intro T _ _; simp
  | cons e t ih =>
    intro T hfree hnd
    rw [List.map_cons] at hnd
    have hnone : T.any (fun r => sameBetKey r (toBetRow K A e)) = false := by
      cases hb : T.any (fun r => sameBetKey r (toBetRow K A e)) with
      | false => rfl
      | true =>
        rcases List.any_eq_true.mp hb with ⟨r, hr, hkey⟩
        rw [hfree e (List.mem_cons_self e t) r hr] at hkey
        cases hkey
    have hstep : cacheChainEvent K A e T = T ++ [toBetRow K A e] := by
      rw [cacheChainEvent_eq, hnone]
      simp
    simp only [List.foldl_cons, hstep]
    rw [ih (T ++ [toBetRow K A e]) ?_ (List.nodup_cons.mp hnd).2]
    · simp
    · intro e' he' r hr
      rcases List.mem_append.mp hr with hrT | hrE
      · exact hfree e' (List.mem_cons_of_mem e he') r hrT
      · rcases List.mem_singleton.mp hrE with rfl
        cases hb : sameBetKey (toBetRow K A e) (toBetRow K A e') with
        | false => rfl
        | true =>
          have hEq := (sameBetKey_toBetRow K A e e').mp hb
          have : (e'.game_id, e'.block_number, e'.side) ∈
              t.map (fun x => (x.game_id, x.block_number, x.side)) :=
            List.mem_map.mpr ⟨e', he', rfl⟩
          exact absurd (hEq ▸ this) (List.nodup_cons.mp hnd).1

theorem base_le_foldl_max : ∀ (l : List ℕ) (b : ℕ), b ≤ l.foldl max b := by
  intro l
  induction l with
  | nil => intro b; exact le_rfl
  | cons a t ih =>
    intro b
    exact le_trans (le_max_left b a) (ih (max b a))

theorem le_foldl_max : ∀ (l : List ℕ) (b : ℕ), ∀ x ∈ l, x ≤ l.foldl max b := by
  intro l
  induction l with
  | nil => intro b x hx; cases hx
  | cons a t ih =>
    intro b x hx
    rcases List.mem_cons.mp hx with rfl | hx
    · exact le_trans (le_max_right b x) (base_le_foldl_max t (max b x))
    · exact ih (max b a) x hx

theorem foldl_max_le : ∀ (l : List ℕ) (b m : ℕ), b ≤ m → (∀ x ∈ l, x ≤ m) →
    l.foldl max b ≤ m := by
  intro l
  induction l with
  | nil => intro b m hb _; exact hb
  | cons a t ih =>
    intro b m hb hall
    exact ih (max b a) m (max_le hb (hall a (List.mem_cons_self a t)))
      (fun x hx => hall x (List.mem_cons_of_mem a hx))

theorem foldl_max_perm : ∀ {l₁ l₂ : List ℕ}, l₁.Perm l₂ →
    ∀ b : ℕ, l₁.foldl max b = l₂.foldl max b := by
  intro l₁ l₂ h
  induction h with
  | nil => intro b; rfl
  | cons x h ih => intro b; simp only [List.foldl_cons]; exact ih (max b x)
  | swap x y l =>
    intro b
    simp only [List.foldl_cons]
    rw [show max (max b y) x = max (max b x) y from by
      rw [max_assoc, max_assoc, max_comm y x]]
  | trans h₁ h₂ ih₁ ih₂ => intro b; exact (ih₁ b).trans (ih₂ b)

theorem maxBlockOf_perm {l₁ l₂ : List BetDict} (h : l₁.Perm l₂) :
    maxBlockOf l₁ = maxBlockOf l₂ := by
  unfold maxBlockOf
  exact foldl_max_perm (h.map (fun d => d.block_number)) 0

theorem filter_append_filter_perm {α : Type} (l : List α) (p q r : α → Bool)
    (hdisj : ∀ a ∈ l, ¬(p a = true ∧ q a = true))
    (hr : ∀ a ∈ l, r a = (p a || q a)) :
    (l.filter p ++ l.filter q).Perm (l.filter r) := by
  induction l with
  | nil => simp
  | cons a t ih =>
    have iht := ih (fun x hx => hdisj x (List.mem_cons_of_mem a hx))
      (fun x hx => hr x (List.mem_cons_of_mem a hx))
    have hra := hr a (List.mem_cons_self a t)
    cases hp : p a with
    | true =>
      have hq : q a = false := by
        cases hq : q a with
        | true => exact absurd ⟨hp, hq⟩ (hdisj a (List.mem_cons_self a t))
        | false => rfl
      have hrt : r a = true := by rw [hra, hp, hq]; rfl
      simp only [List.filter_cons, hp, hq, hrt, if_true, Bool.false_eq_true,
        if_false, List.cons_append]
      exact iht.cons a
    | false =>
      cases hq : q a with
      | true =>
        have hrt : r a = true := by rw [hra, hp, hq]; rfl
        simp only [List.filter_cons, hp, hq, hrt, if_true, Bool.false_eq_true,
          if_false]
        exact List.perm_middle.trans (iht.cons a)
      | false =>
        have hrt : r a = false := by rw [hra, hp, hq]; rfl
        simp only [List.filter_cons, hp, hq, hrt, Bool.false_eq_true, if_false]
        exact iht

theorem window_events_from_cache_or_chain (c : Chain) (K A : String) (now : ℤ)
    (T₀ : BetTable) (o : RpcOutcome) (d : BetDict)
    (hd : d ∈ (get_bets_last_7_days c o K A now T₀).1) :
    (∃ r ∈ T₀, d = betRowToDict r) ∨ ∃ e ∈ c.logs, d = chainEventToDict e := by
  simp only [get_bets_last_7_days] at hd
  split at hd
  · rcases mem_get_cached_bet_events hd with ⟨r, hr, rfl⟩
    exact Or.inl ⟨r, hr, rfl⟩
  · rcases List.mem_append.mp hd with hd' | hd'
    · rcases mem_get_cached_bet_events hd' with ⟨r, hr, rfl⟩
      exact Or.inl ⟨r, hr, rfl⟩
    · cases o with
      | error msg => simp [get_bet_events] at hd'
      | ok =>
        rcases List.mem_map.mp hd' with ⟨e, he, rfl⟩
        simp only [get_bet_events] at he
        have he₁ := (List.mem_filter.mp he).1
        have he₂ := (List.mem_filter.mp he₁).1
        exact Or.inr ⟨e, he₂, rfl⟩

/-- C1 (amended): over one fixed chain state, fetching the window in two
incremental steps — a prefix range `[floor_block, mid]` fetched and cached
first, then `get_bets_last_7_days` fetching the remainder from
`latest_cached_block + 1` — returns, up to ordering, exactly the events of
a single full-range fetch over `[floor_block, current_block]` from an
empty cache; that merged result is therefore a superset of the
from-scratch scan whenever the chain read is not skipped by the 100-block
freshness shortcut (here the cache is more than 100 blocks behind the
head); and no run of the reconciler, from any cache state and any RPC
outcome, fabricates events: every returned event is the projection of a
cached row or of a chain log. -/
theorem incremental_window_equivalence (c : Chain) (K A : String) (now : ℤ)
    (mid : ℕ)
    (hdecode : ∀ e ∈ c.logs, e.decode_ok = true)
    (hts : ∀ e ∈ chainLogsFor c A (floor_block_of c.current_block) mid,
      now - 7 * (SECONDS_PER_DAY : ℤ) ≤ e.timestamp)
    (hkeys : ((chainLogsFor c A (floor_block_of c.current_block) mid).map
      (fun e => (e.game_id, e.block_number, e.side))).Nodup)
    (hne : chainLogsFor c A (floor_block_of c.current_block) mid ≠ [])
    (hfresh : mid + 100 < c.current_block) :
    ((get_bets_last_7_days c .ok K A now
        (get_bet_events c .ok K A (floor_block_of c.current_block) (some mid)
          []).2).1).Perm
      ((get_bets_last_7_days c .ok K A now []).1) ∧
    (∀ d ∈ (get_bets_last_7_days c .ok K A now []).1,
      d ∈ (get_bets_last_7_days c .ok K A now
        (get_bet_events c .ok K A (floor_block_of c.current_block) (some mid)
          []).2).1) ∧
    (∀ (T₀ : BetTable) (o : RpcOutcome) (d : BetDict),
      d ∈ (get_bets_last_7_days c o K A now T₀).1 →
      (∃ r ∈ T₀, d = betRowToDict r) ∨ ∃ e ∈ c.logs, d = chainEventToDict e) := by
  have hdec : ∀ x y, (chainLogsFor c A x y).filter (fun e => e.decode_ok) =
      chainLogsFor c A x y := fun x y =>
    List.filter_eq_self.mpr (fun e he => hdecode e (List.mem_filter.mp he).1)
  set floor := floor_block_of c.current_block with hfloordef
  set evs := chainLogsFor c A floor mid with hevsdef
  have hmem_evs : ∀ e ∈ evs, (e.bettor == A) = true ∧ floor ≤ e.block_number ∧
      e.block_number ≤ mid := by
    intro e he
    rw [hevsdef] at he
    unfold chainLogsFor at he
    have h := (List.mem_filter.mp he).2
    simp only [Bool.and_eq_true, decide_eq_true_eq] at h
    exact ⟨h.1.1, h.1.2, h.2⟩
  have hT₁ : (get_bet_events c .ok K A floor (some mid) []).2 =
      evs.map (toBetRow K A) := by
    have h0 : (get_bet_events c .ok K A floor (some mid) []).2 =
        ((chainLogsFor c A floor mid).filter (fun e => e.decode_ok)).foldl
          (fun acc e => cacheChainEvent K A e acc) [] := rfl
    rw [h0, hdec floor mid, ← hevsdef,
      cacheAll_eq_append K A evs []
        (fun e _ r hr => absurd hr (List.not_mem_nil r)) hkeys]
    exact List.nil_append _
  have hfilterT₁ : (evs.map (toBetRow K A)).filter (fun r =>
      r.contract_address == K && r.evm_address == strToLower A &&
        decide (now - 7 * (SECONDS_PER_DAY : ℤ) ≤ r.timestamp)) =
      evs.map (toBetRow K A) := by
    apply List.filter_eq_self.mpr
    intro r hr
    rcases List.mem_map.mp hr with ⟨e, he, rfl⟩
    have hts' := hts e he
    simp [toBetRow, hts']
  have hcached : (get_cached_bet_events (strToLower A)
      (now - 7 * (SECONDS_PER_DAY : ℤ)) K (evs.map (toBetRow K A))).Perm
      (evs.map chainEventToDict) := by
    unfold get_cached_bet_events sortByTimestampDesc
    rw [hfilterT₁]
    have hp := (List.perm_insertionSort
      (fun a b : BetRow => b.timestamp ≤ a.timestamp)
      (evs.map (toBetRow K A))).map betRowToDict
    rw [List.map_map] at hp
    have hmc : evs.map (betRowToDict ∘ toBetRow K A) = evs.map chainEventToDict :=
      List.map_congr_left (fun e _ => rfl)
    rw [hmc] at hp
    exact hp
  have hLrw : maxBlockOf (evs.map chainEventToDict) =
      (evs.map (fun e => e.block_number)).foldl max 0 := by
    unfold maxBlockOf
    rw [List.map_map]
    exact congrArg (List.foldl max 0) (List.map_congr_left (fun e _ => rfl))
  set L := (evs.map (fun e => e.block_number)).foldl max 0 with hLdef
  have hLmax : maxBlockOf (get_cached_bet_events (strToLower A)
      (now - 7 * (SECONDS_PER_DAY : ℤ)) K (evs.map (toBetRow K A))) = L := by
    rw [maxBlockOf_perm hcached, hLrw]
  have hLmid : L ≤ mid := by
    rw [hLdef]
    exact foldl_max_le _ 0 mid (Nat.zero_le mid)
      (fun x hx => by
        rcases List.mem_map.mp hx with ⟨e, he, rfl⟩
        exact (hmem_evs e he).2.2)
  have hblockL : ∀ e ∈ evs, e.block_number ≤ L := by
    intro e he
    rw [hLdef]
    exact le_foldl_max _ 0 _ (List.mem_map.mpr ⟨e, he, rfl⟩)
  have hfloorL : floor ≤ L := by
    rcases List.exists_mem_of_ne_nil evs hne with ⟨e₀, he₀⟩
    exact le_trans (hmem_evs e₀ he₀).2.1 (hblockL e₀ he₀)
  have hcne : get_cached_bet_events (strToLower A)
      (now - 7 * (SECONDS_PER_DAY : ℤ)) K (evs.map (toBetRow K A)) ≠ [] := by
    intro hnil
    have hlen := hcached.length_eq
    rw [hnil] at hlen
    cases hevs' : evs with
    | nil => exact hne hevs'
    | cons a t =>
      rw [hevs'] at hlen
      simp at hlen
  have hguard : ¬(c.current_block - 100 ≤ L) := by omega
  have hrec : reconcile_from_block c.current_block
      (get_cached_bet_events (strToLower A) (now - 7 * (SECONDS_PER_DAY : ℤ)) K
        (evs.map (toBetRow K A))) = some (L + 1) := by
    unfold reconcile_from_block
    rw [isEmpty_false_of_ne_nil hcne]
    simp only [Bool.false_eq_true, if_false]
    rw [hLmax, if_neg hguard]
  have hres₂ : (get_bets_last_7_days c .ok K A now (evs.map (toBetRow K A))).1 =
      get_cached_bet_events (strToLower A) (now - 7 * (SECONDS_PER_DAY : ℤ)) K
        (evs.map (toBetRow K A)) ++
      (chainLogsFor c A (L + 1) c.current_block).map chainEventToDict := by
    simp only [get_bets_last_7_days]
    rw [hrec]
    simp only [get_bet_events, Option.getD_none]
    rw [hdec (L + 1) c.current_block]
  have hresF : (get_bets_last_7_days c .ok K A now []).1 =
      (chainLogsFor c A floor c.current_block).map chainEventToDict := by
    simp only [get_bets_last_7_days]
    rw [show get_cached_bet_events (strToLower A)
        (now - 7 * (SECONDS_PER_DAY : ℤ)) K ([] : BetTable) = [] from rfl]
    rw [show reconcile_from_block c.current_block ([] : List BetDict) =
        some (floor_block_of c.current_block) from rfl]
    simp only [get_bet_events, Option.getD_none]
    rw [hdec (floor_block_of c.current_block) c.current_block, ← hfloordef]
    exact List.nil_append _
  have hperm_chain : ((chainLogsFor c A floor L) ++
      (chainLogsFor c A (L + 1) c.current_block)).Perm
      (chainLogsFor c A floor c.current_block) := by
    unfold chainLogsFor
    apply filter_append_filter_perm
    · intro e _ hcon
      rcases hcon with ⟨h1, h2⟩
      simp only [Bool.and_eq_true, decide_eq_true_eq] at h1 h2
      omega
    · intro e _
      cases hba : e.bettor == A with
      | false => simp [hba]
      | true =>
        by_cases h1 : floor ≤ e.block_number <;>
          by_cases h2 : e.block_number ≤ c.current_block <;>
            by_cases h3 : e.block_number ≤ L <;>
              by_cases h4 : L + 1 ≤ e.block_number <;>
                simp [hba, h1, h2, h3, h4] <;> omega
  have hcongr_evs : evs = chainLogsFor c A floor L := by
    rw [hevsdef]
    unfold chainLogsFor
    apply List.filter_congr
    intro e he
    cases hba : e.bettor == A with
    | false => simp [hba]
    | true =>
      by_cases h1 : floor ≤ e.block_number
      · by_cases h2 : e.block_number ≤ mid
        · have hmem : e ∈ evs := by
            rw [hevsdef]
            exact List.mem_filter.mpr ⟨he, by simp [hba, h1, h2]⟩
          have h3 : e.block_number ≤ L := hblockL e hmem
          simp [hba, h1, h2, h3]
        · have h3 : ¬e.block_number ≤ L := fun hle => h2 (le_trans hle hLmid)
          simp [hba, h1, h2, h3]
      · simp [hba, h1]
  have hperm_total : ((get_bets_last_7_days c .ok K A now
      (get_bet_events c .ok K A floor (some mid) []).2).1).Perm
      ((get_bets_last_7_days c .ok K A now []).1) := by
    rw [hT₁, hres₂, hresF]
    refine (hcached.append_right _).trans ?_
    rw [← List.map_append, hcongr_evs]
    exact hperm_chain.map chainEventToDict
  exact ⟨hperm_total, fun d hd => hperm_total.mem_iff.mpr hd,
    fun T₀ o d hd => window_events_from_cache_or_chain c K A now T₀ o d hd⟩

theorem incremental_window_equivalence_witness :
    (∀ e ∈ (⟨[⟨1, "a", 0, 5, 1000, 1000000, true⟩,
        ⟨2, "a", 1, 7, 40000, 1000000, true⟩], 51000⟩ : Chain).logs,
      e.decode_ok = true) ∧
    chainLogsFor ⟨[⟨1, "a", 0, 5, 1000, 1000000, true⟩,
        ⟨2, "a", 1, 7, 40000, 1000000, true⟩], 51000⟩ "a"
      (floor_block_of 51000) 2000 ≠ [] ∧
    2000 + 100 < 51000 ∧
    ((get_bets_last_7_days ⟨[⟨1, "a", 0, 5, 1000, 1000000, true⟩,
        ⟨2, "a", 1, 7, 40000, 1000000, true⟩], 51000⟩ .ok "k" "a" 1000000
        (get_bet_events ⟨[⟨1, "a", 0, 5, 1000, 1000000, true⟩,
          ⟨2, "a", 1, 7, 40000, 1000000, true⟩], 51000⟩ .ok "k" "a"
          (floor_block_of 51000) (some 2000) []).2).1).Perm
      ((get_bets_last_7_days ⟨[⟨1, "a", 0, 5, 1000, 1000000, true⟩,
        ⟨2, "a", 1, 7, 40000, 1000000, true⟩], 51000⟩ .ok "k" "a" 1000000
        []).1) :=
  ⟨by decide, by decide, by decide,
    (incremental_window_equivalence
      ⟨[⟨1, "a", 0, 5, 1000, 1000000, true⟩,
        ⟨2, "a", 1, 7, 40000, 1000000, true⟩], 51000⟩ "k" "a" 1000000 2000
      (by decide) (by decide) (by decide) (by decide) (by decide)).1⟩

/-- C1 counterexample: with the cache's latest block within 100 blocks of
the head, the freshness shortcut skips the chain read (there is no RPC
failure: the outcome is `ok`), so the returned window holds only the
cached block-900 event while a from-scratch scan of
`[floor_block, current_block]` also holds the block-950 event — the merged
result is not a superset of the from-scratch scan. -/
theorem freshness_skip_misses_recent_events :
    ((get_bets_last_7_days ⟨[⟨1, "a", 0, 5, 900, 1000000, true⟩,
        ⟨2, "a", 0, 7, 950, 1000000, true⟩], 1000⟩ .ok "k" "a" 1000000
        [⟨"k", "a", 1, 1, 0, 900, 1000000⟩]).1).map (fun d => d.block_number)
      = [900] ∧
    ((chainLogsFor ⟨[⟨1, "a", 0, 5, 900, 1000000, true⟩,
        ⟨2, "a", 0, 7, 950, 1000000, true⟩], 1000⟩ "a"
        (floor_block_of 1000) 1000).map (fun e => e.block_number)) = [900, 950] ∧
    (950 : ℕ) ∉ ((get_bets_last_7_days ⟨[⟨1, "a", 0, 5, 900, 1000000, true⟩,
        ⟨2, "a", 0, 7, 950, 1000000, true⟩], 1000⟩ .ok "k" "a" 1000000
        [⟨"k", "a", 1, 1, 0, 900, 1000000⟩]).1).map (fun d => d.block_number) := by
  exact ⟨by decide, by decide, by decide⟩
